import Mathlib

set_option maxRecDepth 2000

/-!
Verification development for the furnace heat-treatment analyzer
(`furnace_analyzer.py`): a shallow embedding of the cycle detector
(`analyze_cycle`), the per-charge matching step inside `process_data`, the
per-file sensor-cleaning pipeline, and the unit-economics arithmetic,
together with theorems settling the specification claims.

Timestamps are modelled in hours as rationals, temperatures in degrees
Celsius as rationals, gas meter readings as rationals.  A pandas row of the
sensor table (columns 일시 / 온도 / 가스지침 / 가열로) becomes a `Reading`
with fields `ts` / `temp` / `gas` / `unit`.
-/

/-- One sensor reading: `ts` models the 일시 column (hours), `temp` the 온도
column, `gas` the 가스지침 cumulative meter and `unit` the 가열로 id. -/
structure Reading where
  ts : ℚ
  temp : ℚ
  gas : ℚ
  unit : String
deriving DecidableEq, Inhabited

/-- The detector configuration: the five thresholds and the strict flag of
`analyze_cycle(daily_data, temp_start, temp_holding_min, temp_holding_max,
duration_holding_min, temp_end, check_strict_start)`.
`duration_holding_min` is in hours, as in the source, where it is turned
into `timedelta(hours=duration_holding_min)`. -/
structure Config where
  temp_start : ℚ
  temp_holding_min : ℚ
  temp_holding_max : ℚ
  duration_holding_min : ℚ
  temp_end : ℚ
  check_strict_start : Bool
deriving DecidableEq

/-- The rejection messages `analyze_cycle` returns as the second component
of its result tuple, one constructor per `return None, "..."` site.  The
Python formats them as strings; the constructor carries the interpolated
data (`abnormalLowTemperature` carries the violating timestamp printed in
the message at line 158). -/
inductive RejectReason where
  | noValidReheatStart
  | noStartCandidate
  | noValidHoldingInterval
  | endNotReached
  | abnormalLowTemperature (ts : ℚ)
deriving DecidableEq

/-- The success payload of `analyze_cycle`: the dict
`{start_row, end_row, holding_end}` returned at line 161. -/
structure CycleInfo where
  start_row : Reading
  end_row : Reading
  holding_end : ℚ
deriving DecidableEq

/-- The result tuple of `analyze_cycle`: either `(dict, "성공")` or
`(None, reason)`. -/
inductive DetectResult where
  | ok (info : CycleInfo)
  | rejected (reason : RejectReason)
deriving DecidableEq

/-- Run-length grouping of a list by the value of `p`: maximal runs of
consecutive elements on which `p` agrees.  Models
`(is_holding != is_holding.shift()).cumsum()` followed by `groupby('group')`
at lines 119-125 of the source. -/
def splitRuns {α : Type} (p : α → Bool) : List α → List (List α)
  | [] => []
  | [a] => [[a]]
  | a :: b :: t =>
    match splitRuns p (b :: t) with
    | [] => [[a]]
    | g :: gs => if p a = p b then (a :: g) :: gs else [a] :: g :: gs

/-- `group['일시'].max()` over a run (0 only on the empty list, which never
occurs: runs are nonempty). -/
def tsMax : List Reading → ℚ
  | [] => 0
  | [r] => r.ts
  | r :: s :: t => max r.ts (tsMax (s :: t))

/-- `group['일시'].min()` over a run. -/
def tsMin : List Reading → ℚ
  | [] => 0
  | [r] => r.ts
  | r :: s :: t => min r.ts (tsMin (s :: t))

/-- The holding flag of line 116:
`(온도 >= temp_holding_min) & (온도 <= temp_holding_max)`. -/
def isHolding (c : Config) (r : Reading) : Bool :=
  decide (c.temp_holding_min ≤ r.temp) && decide (r.temp ≤ c.temp_holding_max)

/-- `daily_data[daily_data['일시'] > start_time]` (line 113): the readings
strictly after the start anchor. -/
def postStart (l : List Reading) (t : ℚ) : List Reading :=
  l.filter (fun r => decide (t < r.ts))

/-- The holding-flagged runs iterated by
`post_start_data[post_start_data['is_holding']].groupby('group')`
(line 125): the runs of the run-length grouping whose flag value is true. -/
def holdingRuns (c : Config) (l : List Reading) : List (List Reading) :=
  (splitRuns (isHolding c) l).filter (fun g => isHolding c (g.headD default))

/-- The loop at lines 125-131: scan the holding-flagged runs in order and
return `group['일시'].max()` of the first run whose duration
(`max - min` of its timestamps) is at least the minimum holding duration;
`none` if no run qualifies. -/
def findHoldingEnd (c : Config) (l : List Reading) : Option ℚ :=
  ((holdingRuns c l).find?
    (fun g => decide (c.duration_holding_min ≤ tsMax g - tsMin g))).map tsMax

/-- `daily_data.loc[idx:idx + 10]` (line 91): label slicing is inclusive on
both ends, so with the contiguous integer labels the window carries this is
the candidate reading itself plus up to 10 readings after it. -/
def lookaheadSlice (l : List Reading) (i : ℕ) : List Reading :=
  (l.drop i).take 11

/-- Lines 92-95: the slice must hold at least 5 samples
(`if len(window) < 5: continue`) and the temperature must rise by at least
5 degrees from its first to its last sample
(`window['온도'].iloc[-1] - window['온도'].iloc[0] >= 5`). -/
def strictRiseOk (l : List Reading) (i : ℕ) : Bool :=
  decide (5 ≤ (lookaheadSlice l i).length) &&
    decide (5 ≤ ((lookaheadSlice l i).getLastD default).temp -
      ((lookaheadSlice l i).headD default).temp)

/-- Start detection (lines 79-108).  Strict mode scans the indices of the
readings with `온도 <= temp_start` in order (lines 86-98) and takes the
first whose look-ahead slice qualifies, rejecting with the
no-valid-reheat-start message otherwise; non-strict mode takes the first
reading with `온도 <= temp_start` (lines 105-108). -/
def findStart (l : List Reading) (c : Config) : Except RejectReason Reading :=
  if c.check_strict_start then
    match (List.range l.length).find?
        (fun i => decide ((l.getD i default).temp ≤ c.temp_start) && strictRiseOk l i) with
    | some i => .ok (l.getD i default)
    | none => .error .noValidReheatStart
  else
    match l.find? (fun r => decide (r.temp ≤ c.temp_start)) with
    | some r => .ok r
    | none => .error .noStartCandidate

deriving instance DecidableEq for Except

/-- End detection (lines 136-144): among the readings strictly after the
holding end, the first with `온도 <= temp_end`. -/
def findEnd (c : Config) (l : List Reading) (he : ℚ) : Option Reading :=
  (l.filter (fun r => decide (he < r.ts))).find? (fun r => decide (r.temp ≤ c.temp_end))

/-- Strict-mode validation (lines 146-159): inside the window from two
hours after the start anchor (inclusive) up to strictly before the end
time, the timestamp of the first reading with `온도 < temp_start`
(`abnormal_low_temp.iloc[0]['일시']`), if any. -/
def abnormalLowCheck (c : Config) (l : List Reading) (st en : ℚ) : Option ℚ :=
  ((l.filter (fun r => decide (st + 2 ≤ r.ts) && decide (r.ts < en))).find?
    (fun r => decide (r.temp < c.temp_start))).map Reading.ts

/-- The cycle detector `analyze_cycle` (lines 69-165), composed of the four
phases exactly as in the source: start detection, holding detection on the
readings strictly after the start anchor, end detection strictly after the
holding end, and (strict mode only) the abnormal-low-temperature
validation. -/
def analyze_cycle (l : List Reading) (c : Config) : DetectResult :=
  match findStart l c with
  | .error e => .rejected e
  | .ok s =>
    match findHoldingEnd c (postStart l s.ts) with
    | none => .rejected .noValidHoldingInterval
    | some he =>
      match findEnd c l he with
      | none => .rejected .endNotReached
      | some erow =>
        if c.check_strict_start then
          match abnormalLowCheck c l s.ts erow.ts with
          | some t => .rejected (.abnormalLowTemperature t)
          | none => .ok ⟨s, erow, he⟩
        else .ok ⟨s, erow, he⟩

example : analyze_cycle [] ⟨600, 1230, 1270, 10, 900, false⟩ =
    .rejected .noStartCandidate := by with_unfolding_all decide

/-- Python `int(q)`: truncation toward zero. -/
def pyInt (q : ℚ) : ℤ :=
  if 0 ≤ q then q.floor else -((-q).floor)

/-- Python `round` tie behaviour on integers-and-a-half: round half to
even; away from ties, round to the nearest integer. -/
def pyRoundInt (q : ℚ) : ℤ :=
  if q - q.floor < 1/2 then q.floor
  else if 1/2 < q - q.floor then q.floor + 1
  else if q.floor % 2 = 0 then q.floor else q.floor + 1

/-- `round(x, 2)` of the source (line 320), modelled as exact decimal
rounding of the rational value to two places. -/
def round2 (q : ℚ) : ℚ :=
  (pyRoundInt (q * 100) : ℚ) / 100

/-- The 달성여부 value of a result row: `'Pass'`, `'Fail'` or `'N/A'`
(lines 305-309). -/
inductive Achievement where
  | Pass
  | Fail
  | NA
deriving DecidableEq

/-- One production-record row after preprocessing (lines 185-190):
`start_ts` models 시작일시 (hours), `charge_kg` models 장입량 and `unit`
the 가열로 id. -/
structure Charge where
  start_ts : ℚ
  charge_kg : ℚ
  unit : String
deriving DecidableEq

/-- The matching parameters of `process_data` beyond the detector
configuration: the matching tolerance (hours), and the target-cost mode
and value. -/
structure MatchParams where
  cfg : Config
  use_target_cost : Bool
  target_cost : ℚ
  time_tolerance_hours : ℚ
deriving DecidableEq

/-- One output row of `process_data` (the dict appended at lines 311-323),
with the presentation-only date strings omitted: `gas_used_int` and
`charge_kg_int` model the `int(...)` casts, `unit_cost` models
`round(unit, 2)` (원단위) and `holding_end` the timestamp shown in 비고. -/
structure CycleResult where
  unit : String
  start_ts : ℚ
  start_gas : ℚ
  end_ts : ℚ
  end_gas : ℚ
  gas_used_int : ℤ
  charge_kg_int : ℤ
  unit_cost : ℚ
  achievement : Achievement
  holding_end : ℚ
deriving DecidableEq

/-- The search window of lines 262-268: the unit's readings with
`window_start <= 일시 < window_end`, where
`window_start = 시작일시 - timedelta(hours=time_tolerance_hours)` and
`window_end = 시작일시 + timedelta(hours=48)`. -/
def chargeWindow (sensor : List Reading) (prod : Charge) (mp : MatchParams) : List Reading :=
  sensor.filter (fun r =>
    decide (prod.start_ts - mp.time_tolerance_hours ≤ r.ts) &&
      decide (r.ts < prod.start_ts + 48))

/-- A Python runtime error surfacing from the loop body. -/
inductive PyRuntimeError where
  | nameError (name : String)
deriving DecidableEq

/-- Whether one iteration of the per-charge loop completes (with an
optional result row) or raises. -/
inductive StepOutcome where
  | completed (res : Option CycleResult)
  | raised (err : PyRuntimeError)
deriving DecidableEq

/-- The per-charge loop body of `process_data` exactly as written: the
window is built (lines 262-268) and an empty window skips the charge
(line 270), but the detector call at line 277 reads `duration_min_td`,
a name bound only inside `analyze_cycle` and never in `process_data`'s
scope, so every charge that reaches line 277 raises
`NameError: name 'duration_min_td' is not defined`. -/
def process_data_charge_step (sensor : List Reading) (prod : Charge)
    (mp : MatchParams) : StepOutcome :=
  let window := chargeWindow sensor prod mp
  if window.isEmpty then .completed none
  else .raised (.nameError "duration_min_td")

/-- A sensor dataframe as the detector sees it: the reading rows plus the
derived `temp_diff` column, present when some invocation has written it
(line 83 does `daily_data['temp_diff'] = ...`, an in-place column
assignment on the frame the caller handed in). -/
structure Frame where
  readings : List Reading
  temp_diff : Option (List ℚ)
deriving DecidableEq

/-- The column written at line 83: `daily_data['온도'].diff().fillna(0)`,
first entry 0, then consecutive temperature differences. -/
def tempDiffCol (l : List Reading) : List ℚ :=
  match l with
  | [] => []
  | _ :: t => 0 :: List.zipWith (fun a b => b.temp - a.temp) l t

/-- `analyze_cycle` with its effect on the frame it is handed: the result
is that of `analyze_cycle` on the rows, and in strict mode the input frame
additionally ends up carrying the `temp_diff` column written at line 83
(every other frame access in the function goes through `.copy()`); in
non-strict mode the frame is untouched. -/
def analyze_cycle_frame (f : Frame) (c : Config) : DetectResult × Frame :=
  if c.check_strict_start then
    (analyze_cycle f.readings c, ⟨f.readings, some (tempDiffCol f.readings)⟩)
  else
    (analyze_cycle f.readings c, f)

/-- `df.sort_values('일시')` for one sensor file (line 223), modelled as a
stable sort by timestamp. -/
def sortByTs (l : List Reading) : List Reading :=
  l.insertionSort (fun a b => a.ts ≤ b.ts)

/-- `df.drop_duplicates(subset=['일시', '가열로'], keep='last')` (line 226)
applied to a frame already sorted by timestamp: rows with equal
(timestamp, unit) key are adjacent there, and of each such block only the
last row survives. -/
def dropDupKeepLast : List Reading → List Reading
  | [] => []
  | [r] => [r]
  | a :: b :: t =>
    if a.ts = b.ts ∧ a.unit = b.unit then dropDupKeepLast (b :: t)
    else a :: dropDupKeepLast (b :: t)

/-- The per-file cleaning of lines 223-226: sort by timestamp, then
deduplicate by (timestamp, unit) keeping the last occurrence.  This runs
once per uploaded sensor file, before concatenation. -/
def cleanFile (rows : List Reading) : List Reading :=
  dropDupKeepLast (sortByTs rows)

/-- `pd.concat(df_list, ignore_index=True)` (line 234) over the per-file
cleaned frames: the files' rows are stacked in upload order with no
further sorting or deduplication. -/
def assembleSensor (files : List (List Reading)) : List Reading :=
  (files.map cleanFile).flatten

/-- The configuration with only the minimum holding duration replaced. -/
def setDuration (c : Config) (d : ℚ) : Config :=
  ⟨c.temp_start, c.temp_holding_min, c.temp_holding_max, d, c.temp_end,
    c.check_strict_start⟩

/-- The holding runs passing the minimum-duration test of line 129,
in order. -/
def acceptedRuns (c : Config) (l : List Reading) : List (List Reading) :=
  (holdingRuns c l).filter (fun g => decide (c.duration_holding_min ≤ tsMax g - tsMin g))

/-- Non-strict detector configuration used in the concrete instances:
start at 600 °C, holding band 1230-1270 °C for at least 1 h, end at
900 °C. -/
def cfgNS : Config := ⟨600, 1230, 1270, 1, 900, false⟩

/-- The strict variant of `cfgNS`. -/
def cfgS : Config := ⟨600, 1230, 1270, 1, 900, true⟩

/-- A unit's sensor sequence holding one complete non-strict cycle: start
anchor at 09:30 (temperature 500 ≤ 600), a holding run from 10:00 to 11:30
(1.5 h in band), end anchor at 12:00 (800 ≤ 900), meter from 100 to 600. -/
def exSensor : List Reading :=
  [⟨9.5, 500, 100, "F1"⟩, ⟨10, 1240, 110, "F1"⟩, ⟨11.5, 1240, 200, "F1"⟩,
    ⟨12, 800, 600, "F1"⟩]

/-- A production charge at 08:00 with 20000 kg loaded. -/
def exCharge : Charge := ⟨8, 20000, "F1"⟩

/-- Matching parameters with a 1 h tolerance, target mode on. -/
def mpTol1 : MatchParams := ⟨cfgNS, true, 25.53, 1⟩

/-- Matching parameters with a 2 h tolerance, target mode on. -/
def mpTol2 : MatchParams := ⟨cfgNS, true, 25.53, 2⟩

/-- A strict-mode window: index 0 (580 °C at 00:00, below the 600 °C start
threshold) is the start anchor — its look-ahead slice is the whole
7-sample window, which rises 270 °C; a holding run covers 02:00-05:00, the
end anchor is at 06:00 (850 ≤ 900), and the strict check window
[02:00, 06:00) contains no reading below 600 °C. -/
def strictSensor : List Reading :=
  [⟨0, 580, 0, "F1"⟩, ⟨1, 700, 1, "F1"⟩, ⟨2, 1240, 2, "F1"⟩, ⟨3, 1240, 3, "F1"⟩,
    ⟨4, 1250, 4, "F1"⟩, ⟨5, 1240, 5, "F1"⟩, ⟨6, 850, 500, "F1"⟩]

/-- The candidate the detector finds in `exSensor` under `cfgNS`. -/
def exInfo : CycleInfo :=
  ⟨⟨9.5, 500, 100, "F1"⟩, ⟨12, 800, 600, "F1"⟩, 11.5⟩

theorem analyze_cycle_exSensor : analyze_cycle exSensor cfgNS = .ok exInfo := by
  with_unfolding_all decide

theorem analyze_cycle_strictSensor : analyze_cycle strictSensor cfgS =
    .ok ⟨⟨0, 580, 0, "F1"⟩, ⟨6, 850, 500, "F1"⟩, 5⟩ := by
  with_unfolding_all decide

/-! ### Generic list lemmas -/

theorem find?_eq_some_split {α : Type} {p : α → Bool} {l : List α} {a : α} :
    l.find? p = some a ↔
      ∃ l₁ l₂, l = l₁ ++ a :: l₂ ∧ p a = true ∧ ∀ x ∈ l₁, p x = false := by
  induction l with
  | nil => simp
  | cons b t ih =>
    by_cases hb : p b = true
    · rw [List.find?_cons_of_pos t hb]
      constructor
      · rintro h
        injection h with h
        exact ⟨[], t, by simp [h], by simpa [← h] using hb, by simp⟩
      · rintro ⟨l₁, l₂, heq, hpa, hfail⟩
        cases l₁ with
        | nil =>
          simp only [List.nil_append] at heq
          injection heq with h₁ _
          rw [h₁]
        | cons c l₁ =>
          simp only [List.cons_append] at heq
          injection heq with h₁ _
          exact absurd (h₁ ▸ hb) (by simp [hfail c (by simp)])
    · rw [List.find?_cons_of_neg t hb, ih]
      constructor
      · rintro ⟨l₁, l₂, heq, hpa, hfail⟩
        refine ⟨b :: l₁, l₂, by simp [heq], hpa, ?_⟩
        intro x hx
        rcases List.mem_cons.mp hx with h | h
        · simpa [h] using (Bool.not_eq_true _).mp hb
        · exact hfail x h
      · rintro ⟨l₁, l₂, heq, hpa, hfail⟩
        cases l₁ with
        | nil =>
          injection heq with h₁ h₂
          exact absurd (h₁ ▸ hpa) hb
        | cons c l₁ =>
          injection heq with h₁ h₂
          exact ⟨l₁, l₂, h₂, hpa, fun x hx => hfail x (by simp [hx])⟩

theorem find?_range'_eq_some {p : ℕ → Bool} :
    ∀ {n s i : ℕ}, ((List.range' s n).find? p = some i ↔
      s ≤ i ∧ i < s + n ∧ p i = true ∧ ∀ j, s ≤ j → j < i → p j = false) := by
  intro n
  induction n with
  | zero => intro s i; simp [List.range'_zero]; omega
  | succ n ih =>
    intro s i
    rw [List.range'_succ]
    by_cases hs : p s = true
    · rw [List.find?_cons_of_pos _ hs]
      constructor
      · rintro h
        injection h with h
        subst h
        exact ⟨le_refl _, by omega, hs, fun j h₁ h₂ => by omega⟩
      · rintro ⟨h₁, h₂, h₃, h₄⟩
        congr
        by_contra hne
        have hlt : s < i := lt_of_le_of_ne h₁ hne
        exact absurd hs (by simp [h₄ s (le_refl _) hlt])
    · rw [List.find?_cons_of_neg _ hs, ih]
      constructor
      · rintro ⟨h₁, h₂, h₃, h₄⟩
        refine ⟨by omega, by omega, h₃, fun j hj₁ hj₂ => ?_⟩
        rcases Nat.eq_or_lt_of_le hj₁ with h | h
        · simpa [← h] using (Bool.not_eq_true _).mp hs
        · exact h₄ j h hj₂
      · rintro ⟨h₁, h₂, h₃, h₄⟩
        have hne : i ≠ s := fun h => hs (h ▸ h₃)
        exact ⟨by omega, by omega, h₃, fun j hj₁ hj₂ => h₄ j (by omega) hj₂⟩

theorem find?_range_eq_some {p : ℕ → Bool} {n i : ℕ} :
    (List.range n).find? p = some i ↔
      i < n ∧ p i = true ∧ ∀ j < i, p j = false := by
  rw [List.range_eq_range', find?_range'_eq_some]
  constructor
  · rintro ⟨_, h₂, h₃, h₄⟩
    exact ⟨by omega, h₃, fun j hj => h₄ j (by omega) hj⟩
  · rintro ⟨h₁, h₂, h₃⟩
    exact ⟨by omega, by omega, h₂, fun j _ hj => h₃ j hj⟩

theorem find?_eq_none_iff {α : Type} {p : α → Bool} {l : List α} :
    l.find? p = none ↔ ∀ x ∈ l, p x = false := by
  rw [List.find?_eq_none]
  constructor
  · intro h x hx; simpa using h x hx
  · intro h x hx; simp [h x hx]

theorem splitRuns_cons_cons {α : Type} (p : α → Bool) (a b : α) (t : List α) :
    splitRuns p (a :: b :: t) =
      match splitRuns p (b :: t) with
      | [] => [[a]]
      | g :: gs => if p a = p b then (a :: g) :: gs else [a] :: g :: gs := rfl

theorem splitRuns_shape {α : Type} (p : α → Bool) (a : α) (t : List α) :
    ∃ g gs, splitRuns p (a :: t) = (a :: g) :: gs := by
  induction t generalizing a with
  | nil => exact ⟨[], [], rfl⟩
  | cons b t' ih =>
    obtain ⟨g, gs, hg⟩ := ih b
    rw [splitRuns_cons_cons, hg]
    by_cases h : p a = p b
    · exact ⟨b :: g, gs, by simp [h]⟩
    · exact ⟨[], (b :: g) :: gs, by simp [h]⟩

theorem splitRuns_flatten {α : Type} (p : α → Bool) :
    ∀ l : List α, (splitRuns p l).flatten = l := by
  intro l
  induction l with
  | nil => rfl
  | cons a t ih =>
    cases t with
    | nil => rfl
    | cons b t' =>
      obtain ⟨g, gs, hg⟩ := splitRuns_shape p b t'
      rw [splitRuns_cons_cons, hg]
      by_cases h : p a = p b
      · simp only [if_pos h]
        have := ih
        rw [hg] at this
        simpa using this
      · simp only [if_neg h]
        have := ih
        rw [hg] at this
        simpa using this

theorem mem_splitRuns_ne_nil {α : Type} {p : α → Bool} :
    ∀ {l g : List α}, g ∈ splitRuns p l → g ≠ [] := by
  intro l
  induction l with
  | nil => intro g h; simp [splitRuns] at h
  | cons a t ih =>
    intro g hg
    cases t with
    | nil =>
      simp only [splitRuns, List.mem_singleton] at hg
      simp [hg]
    | cons b t' =>
      obtain ⟨g', gs, hshape⟩ := splitRuns_shape p b t'
      rw [splitRuns_cons_cons, hshape] at hg
      by_cases h : p a = p b
      · simp only [if_pos h, List.mem_cons] at hg
        rcases hg with hg | hg
        · simp [hg]
        · exact ih (by rw [hshape]; exact List.mem_cons_of_mem _ hg)
      · simp only [if_neg h, List.mem_cons] at hg
        rcases hg with hg | hg
        · simp [hg]
        · exact ih (by rw [hshape]; exact List.mem_cons.mpr hg)

theorem mem_splitRuns_const {α : Type} {p : α → Bool} :
    ∀ {l g : List α}, g ∈ splitRuns p l → ∃ v, ∀ x ∈ g, p x = v := by
  intro l
  induction l with
  | nil => intro g h; simp [splitRuns] at h
  | cons a t ih =>
    intro g hg
    cases t with
    | nil =>
      simp only [splitRuns, List.mem_singleton] at hg
      exact ⟨p a, by simp [hg]⟩
    | cons b t' =>
      obtain ⟨g', gs, hshape⟩ := splitRuns_shape p b t'
      rw [splitRuns_cons_cons, hshape] at hg
      by_cases h : p a = p b
      · simp only [if_pos h, List.mem_cons] at hg
        rcases hg with hg | hg
        · obtain ⟨v, hv⟩ := ih (show (b :: g') ∈ splitRuns p (b :: t') by
            rw [hshape]; exact List.mem_cons_self _ _)
          refine ⟨v, ?_⟩
          intro x hx
          rw [hg] at hx
          rcases List.mem_cons.mp hx with hx | hx
          · rw [hx, h]; exact hv b (List.mem_cons_self _ _)
          · exact hv x hx
        · exact ih (by rw [hshape]; exact List.mem_cons_of_mem _ hg)
      · simp only [if_neg h, List.mem_cons] at hg
        rcases hg with hg | hg
        · exact ⟨p a, by simp [hg]⟩
        · exact ih (by rw [hshape]; exact List.mem_cons.mpr hg)

theorem splitRuns_chain' {α : Type} (p : α → Bool) :
    ∀ l : List α,
      (splitRuns p l).Chain' (fun g h => ∀ x ∈ g, ∀ y ∈ h, p x ≠ p y) := by
  intro l
  induction l with
  | nil => simp [splitRuns]
  | cons a t ih =>
    cases t with
    | nil => simp [splitRuns]
    | cons b t' =>
      obtain ⟨g', gs, hshape⟩ := splitRuns_shape p b t'
      rw [hshape] at ih
      rw [splitRuns_cons_cons, hshape]
      by_cases h : p a = p b
      · simp only [if_pos h]
        rcases List.chain'_cons'.mp ih with ⟨hrel, hchain⟩
        refine List.chain'_cons'.mpr ⟨?_, hchain⟩
        intro z hz x hx y hy
        have hb : p b ≠ p y := hrel z hz b (List.mem_cons_self _ _) y hy
        rcases List.mem_cons.mp hx with hx | hx
        · rw [hx, h]; exact hb
        · exact hrel z hz x hx y hy
      · simp only [if_neg h]
        refine List.chain'_cons'.mpr ⟨?_, ih⟩
        intro z hz x hx y hy
        obtain ⟨v, hv⟩ :=
          mem_splitRuns_const (show (b :: g') ∈ splitRuns p (b :: t') by
            rw [hshape]; exact List.mem_cons_self _ _)
        have hx' : x = a := by simpa using hx
        have hz' : b :: g' = z := by simpa using hz
        subst hz'
        rw [hx', hv y hy, ← hv b (List.mem_cons_self _ _)]
        exact h

theorem getLastD_irrel {α : Type} {l : List α} (h : l ≠ []) (d₁ d₂ : α) :
    l.getLastD d₁ = l.getLastD d₂ := by
  cases l with
  | nil => exact absurd rfl h
  | cons a t => rw [List.getLastD_cons d₁ a t, List.getLastD_cons d₂ a t]

theorem getLastD_mem {α : Type} : ∀ {l : List α}, l ≠ [] → ∀ d, l.getLastD d ∈ l := by
  intro l
  induction l with
  | nil => intro h; exact absurd rfl h
  | cons a t ih =>
    intro _ d
    cases t with
    | nil => simp
    | cons b t' =>
      rw [List.getLastD_cons]
      exact List.mem_cons_of_mem _ (ih (by simp) a)

theorem tsMax_cons_cons (a b : Reading) (t : List Reading) :
    tsMax (a :: b :: t) = max a.ts (tsMax (b :: t)) := rfl

theorem tsMin_cons_cons (a b : Reading) (t : List Reading) :
    tsMin (a :: b :: t) = min a.ts (tsMin (b :: t)) := rfl

theorem tsMax_mem : ∀ {g : List Reading}, g ≠ [] → ∃ r ∈ g, tsMax g = r.ts := by
  intro g
  induction g with
  | nil => intro h; exact absurd rfl h
  | cons a t ih =>
    intro _
    cases t with
    | nil => exact ⟨a, by simp, rfl⟩
    | cons b t' =>
      obtain ⟨r, hr, hmax⟩ := ih (by simp)
      rcases le_total a.ts (tsMax (b :: t')) with h | h
      · exact ⟨r, List.mem_cons_of_mem _ hr,
          by rw [tsMax_cons_cons, max_eq_right h, hmax]⟩
      · exact ⟨a, List.mem_cons_self _ _, by rw [tsMax_cons_cons, max_eq_left h]⟩

theorem tsMin_mem : ∀ {g : List Reading}, g ≠ [] → ∃ r ∈ g, tsMin g = r.ts := by
  intro g
  induction g with
  | nil => intro h; exact absurd rfl h
  | cons a t ih =>
    intro _
    cases t with
    | nil => exact ⟨a, by simp, rfl⟩
    | cons b t' =>
      obtain ⟨r, hr, hmin⟩ := ih (by simp)
      rcases le_total a.ts (tsMin (b :: t')) with h | h
      · exact ⟨a, List.mem_cons_self _ _, by rw [tsMin_cons_cons, min_eq_left h]⟩
      · exact ⟨r, List.mem_cons_of_mem _ hr,
          by rw [tsMin_cons_cons, min_eq_right h, hmin]⟩

theorem le_tsMax : ∀ {g : List Reading} {r : Reading}, r ∈ g → r.ts ≤ tsMax g := by
  intro g
  induction g with
  | nil => intro r h; simp at h
  | cons a t ih =>
    intro r hr
    cases t with
    | nil =>
      have : r = a := by simpa using hr
      simp [this, tsMax]
    | cons b t' =>
      rw [tsMax_cons_cons]
      rcases List.mem_cons.mp hr with h | h
      · rw [h]; exact le_max_left _ _
      · exact le_trans (ih h) (le_max_right _ _)

theorem tsMax_sorted : ∀ {g : List Reading}, g ≠ [] →
    g.Pairwise (fun a b => a.ts ≤ b.ts) →
    tsMax g = (g.getLastD default).ts := by
  intro g
  induction g with
  | nil => intro h; exact absurd rfl h
  | cons a t ih =>
    intro _ hs
    cases t with
    | nil => rfl
    | cons b t' =>
      rcases List.pairwise_cons.mp hs with ⟨hle, hs'⟩
      have hmax : tsMax (b :: t') = ((b :: t').getLastD default).ts := ih (by simp) hs'
      have hmem : (b :: t').getLastD default ∈ b :: t' := getLastD_mem (by simp) default
      rw [tsMax_cons_cons, hmax, max_eq_right (hle _ hmem),
        List.getLastD_cons default a (b :: t'),
        getLastD_irrel (show b :: t' ≠ [] from by simp) a default]

theorem tsMin_sorted : ∀ {g : List Reading}, g ≠ [] →
    g.Pairwise (fun a b => a.ts ≤ b.ts) →
    tsMin g = (g.headD default).ts := by
  intro g
  induction g with
  | nil => intro h; exact absurd rfl h
  | cons a t ih =>
    intro _ hs
    cases t with
    | nil => rfl
    | cons b t' =>
      rcases List.pairwise_cons.mp hs with ⟨hle, hs'⟩
      obtain ⟨r, hr, hmin⟩ := tsMin_mem (g := b :: t') (by simp)
      have : a.ts ≤ tsMin (b :: t') := by rw [hmin]; exact hle r hr
      rw [tsMin_cons_cons, min_eq_left this, List.headD_cons]

/-! ### Inversion and composition helpers for the detector -/

theorem mem_postStart {l : List Reading} {t : ℚ} {r : Reading} :
    r ∈ postStart l t ↔ r ∈ l ∧ t < r.ts := by
  simp [postStart, List.mem_filter]

theorem postStart_sublist (l : List Reading) (t : ℚ) : (postStart l t).Sublist l :=
  List.filter_sublist l

theorem analyze_cycle_ok_inv {l : List Reading} {c : Config} {info : CycleInfo}
    (h : analyze_cycle l c = .ok info) :
    findStart l c = .ok info.start_row ∧
    findHoldingEnd c (postStart l info.start_row.ts) = some info.holding_end ∧
    findEnd c l info.holding_end = some info.end_row ∧
    (c.check_strict_start = true →
      abnormalLowCheck c l info.start_row.ts info.end_row.ts = none) := by
  cases hfs : findStart l c with
  | error e =>
    simp only [analyze_cycle, hfs] at h
    exact DetectResult.noConfusion h
  | ok s =>
    cases hhe : findHoldingEnd c (postStart l s.ts) with
    | none =>
      simp only [analyze_cycle, hfs, hhe] at h
      exact DetectResult.noConfusion h
    | some he =>
      cases hfe : findEnd c l he with
      | none =>
        simp only [analyze_cycle, hfs, hhe, hfe] at h
        exact DetectResult.noConfusion h
      | some erow =>
        by_cases hc : c.check_strict_start = true
        · cases hab : abnormalLowCheck c l s.ts erow.ts with
          | some t =>
            simp only [analyze_cycle, hfs, hhe, hfe, hc, if_true, hab] at h
            exact DetectResult.noConfusion h
          | none =>
            simp only [analyze_cycle, hfs, hhe, hfe, hc, if_true, hab,
              DetectResult.ok.injEq] at h
            subst h
            exact ⟨rfl, hhe, hfe, fun _ => hab⟩
        · simp only [Bool.not_eq_true] at hc
          simp only [analyze_cycle, hfs, hhe, hfe, hc, Bool.false_eq_true, if_false,
            DetectResult.ok.injEq] at h
          subst h
          exact ⟨rfl, hhe, hfe, fun hcc => by rw [hc] at hcc; exact absurd hcc (by simp)⟩

theorem analyze_cycle_eq_ok {l : List Reading} {c : Config} {s erow : Reading} {he : ℚ}
    (hfs : findStart l c = .ok s)
    (hhe : findHoldingEnd c (postStart l s.ts) = some he)
    (hfe : findEnd c l he = some erow)
    (hab : c.check_strict_start = true → abnormalLowCheck c l s.ts erow.ts = none) :
    analyze_cycle l c = .ok ⟨s, erow, he⟩ := by
  by_cases hc : c.check_strict_start = true
  · simp [analyze_cycle, hfs, hhe, hfe, hc, hab hc]
  · simp only [Bool.not_eq_true] at hc
    simp [analyze_cycle, hfs, hhe, hfe, hc]

theorem analyze_cycle_eq_rejected_start {l : List Reading} {c : Config} {e : RejectReason}
    (hfs : findStart l c = .error e) :
    analyze_cycle l c = .rejected e := by
  simp [analyze_cycle, hfs]

theorem analyze_cycle_eq_rejected_holding {l : List Reading} {c : Config} {s : Reading}
    (hfs : findStart l c = .ok s)
    (hhe : findHoldingEnd c (postStart l s.ts) = none) :
    analyze_cycle l c = .rejected .noValidHoldingInterval := by
  simp [analyze_cycle, hfs, hhe]

theorem analyze_cycle_eq_rejected_abnormal {l : List Reading} {c : Config}
    {s erow : Reading} {he t : ℚ}
    (hc : c.check_strict_start = true)
    (hfs : findStart l c = .ok s)
    (hhe : findHoldingEnd c (postStart l s.ts) = some he)
    (hfe : findEnd c l he = some erow)
    (hab : abnormalLowCheck c l s.ts erow.ts = some t) :
    analyze_cycle l c = .rejected (.abnormalLowTemperature t) := by
  simp [analyze_cycle, hfs, hhe, hfe, hc, hab]

theorem findHoldingEnd_some_inv {c : Config} {l : List Reading} {he : ℚ}
    (h : findHoldingEnd c l = some he) :
    ∃ g, (holdingRuns c l).find?
        (fun g => decide (c.duration_holding_min ≤ tsMax g - tsMin g)) = some g ∧
      tsMax g = he := by
  unfold findHoldingEnd at h
  exact Option.map_eq_some'.mp h

theorem mem_holdingRuns {c : Config} {l g : List Reading} (h : g ∈ holdingRuns c l) :
    g ∈ splitRuns (isHolding c) l ∧ isHolding c (g.headD default) = true := by
  simpa [holdingRuns, List.mem_filter] using h

theorem splitRun_sublist {c : Config} {l g : List Reading}
    (h : g ∈ splitRuns (isHolding c) l) : g.Sublist l := by
  have h' := List.sublist_flatten_of_mem h
  rwa [splitRuns_flatten] at h'

theorem mem_holdingRuns_all_holding {c : Config} {l g : List Reading}
    (h : g ∈ holdingRuns c l) : ∀ r ∈ g, isHolding c r = true := by
  obtain ⟨hs, hh⟩ := mem_holdingRuns h
  obtain ⟨v, hv⟩ := mem_splitRuns_const hs
  have hne := mem_splitRuns_ne_nil hs
  have hd : g.headD default ∈ g := by
    cases g with
    | nil => exact absurd rfl hne
    | cons a t => simp
  intro r hr
  rw [hv r hr, ← hv _ hd]
  exact hh

theorem isHolding_iff {c : Config} {r : Reading} :
    isHolding c r = true ↔ c.temp_holding_min ≤ r.temp ∧ r.temp ≤ c.temp_holding_max := by
  simp [isHolding]

theorem analyze_cycle_nil_not_ok (c : Config) (info : CycleInfo) :
    analyze_cycle [] c ≠ .ok info := by
  by_cases hc : c.check_strict_start = true
  · simp [analyze_cycle, findStart, hc]
  · simp only [Bool.not_eq_true] at hc
    simp [analyze_cycle, findStart, hc]

theorem find?_eq_head?_filter {α : Type} (p : α → Bool) :
    ∀ l : List α, l.find? p = (l.filter p).head? := by
  intro l
  induction l with
  | nil => rfl
  | cons a t ih =>
    by_cases h : p a = true
    · rw [List.find?_cons_of_pos _ h, List.filter_cons_of_pos h]
      rfl
    · rw [List.find?_cons_of_neg _ h, List.filter_cons_of_neg (by simpa using h), ih]

/-! ### Claim theorems -/

/-- Claim C6: a single invocation of `analyze_cycle` returns at most one
candidate, and whenever a candidate is returned its anchors are strictly
ordered as timestamps: start < holdingEnd < end (the holding interval is
searched only strictly after the start anchor, and the end anchor only
strictly after the holding-end anchor). -/
theorem C6_candidate_anchor_ordering (l : List Reading) (c : Config) (info : CycleInfo)
    (h : analyze_cycle l c = .ok info) :
    (∀ info', analyze_cycle l c = .ok info' → info' = info) ∧
    info.start_row.ts < info.holding_end ∧
    info.holding_end < info.end_row.ts := by
  obtain ⟨hfs, hhe, hfe, _⟩ := analyze_cycle_ok_inv h
  refine ⟨?_, ?_, ?_⟩
  · intro info' h'
    rw [h] at h'
    injection h' with h''
    exact h''.symm
  · obtain ⟨g, hfind, htsmax⟩ := findHoldingEnd_some_inv hhe
    have hg : g ∈ holdingRuns c (postStart l info.start_row.ts) :=
      List.mem_of_find?_eq_some hfind
    obtain ⟨hsp, _⟩ := mem_holdingRuns hg
    have hne := mem_splitRuns_ne_nil hsp
    obtain ⟨r, hr, hmax⟩ := tsMax_mem hne
    have hsub := splitRun_sublist hsp
    have hrp : r ∈ postStart l info.start_row.ts := hsub.subset hr
    rw [← htsmax, hmax]
    exact (mem_postStart.mp hrp).2
  · unfold findEnd at hfe
    have hmem := List.mem_of_find?_eq_some hfe
    have hlt := (List.mem_filter.mp hmem).2
    simpa using hlt

/-- Witness for C6: the concrete non-strict window `exSensor` yields a
candidate and its anchors are strictly ordered 09:30 < 11:30 < 12:00. -/
theorem C6_witness :
    analyze_cycle exSensor cfgNS = .ok exInfo ∧
    exInfo.start_row.ts < exInfo.holding_end ∧
    exInfo.holding_end < exInfo.end_row.ts :=
  ⟨analyze_cycle_exSensor,
    (C6_candidate_anchor_ordering exSensor cfgNS exInfo analyze_cycle_exSensor).2⟩

/-- Claim C1 (code bug): the per-charge loop body of `process_data` does
not complete without raising on a charge with a non-empty search window —
the detector call at line 277 reads the unbound name `duration_min_td` and
raises `NameError`, contradicting the spec's recover-locally policy.  The
window for the 08:00 charge over `exSensor` is non-empty, and the loop
body raises instead of completing. -/
theorem C1_matching_step_raises :
    chargeWindow exSensor exCharge mpTol2 ≠ [] ∧
    process_data_charge_step exSensor exCharge mpTol2 =
      .raised (.nameError "duration_min_td") := by
  constructor
  · with_unfolding_all decide
  · with_unfolding_all decide

/-- Claim C9 counterexample: in strict mode, `analyze_cycle` does not
leave the frame it is given unmodified — it writes the `temp_diff` column
onto it (line 83), so the frame after the invocation differs from the
frame before. -/
theorem C9_counterexample :
    (analyze_cycle_frame ⟨strictSensor, none⟩ cfgS).2 ≠ ⟨strictSensor, none⟩ := by
  with_unfolding_all decide

/-- Claim C9 amended: the detector never modifies the reading rows of the
frame it is given and its result is a pure function of them; in non-strict
mode the frame is returned untouched, while in strict mode the invocation
writes the derived `temp_diff` column onto the input frame (the reading
rows still unchanged). -/
theorem C9_detector_frame_effect (f : Frame) (c : Config) :
    ((analyze_cycle_frame f c).2).readings = f.readings ∧
    (analyze_cycle_frame f c).1 = analyze_cycle f.readings c ∧
    (c.check_strict_start = false → (analyze_cycle_frame f c).2 = f) ∧
    (c.check_strict_start = true →
      (analyze_cycle_frame f c).2 = ⟨f.readings, some (tempDiffCol f.readings)⟩) := by
  by_cases hc : c.check_strict_start = true
  · simp [analyze_cycle_frame, hc]
  · simp only [Bool.not_eq_true] at hc
    simp [analyze_cycle_frame, hc]

/-- Witness for the amended C9: a concrete non-strict invocation returns
its frame untouched. -/
theorem C9_witness :
    cfgNS.check_strict_start = false ∧
    (analyze_cycle_frame ⟨exSensor, none⟩ cfgNS).2 = ⟨exSensor, none⟩ :=
  ⟨rfl, (C9_detector_frame_effect ⟨exSensor, none⟩ cfgNS).2.2.1 rfl⟩

/-- Claim C10: raising the minimum holding duration never increases the
set of accepted holding runs — the accepted runs at a larger threshold
form a sublist of those at a smaller one, so their count is monotonically
non-increasing, and any run accepted at the larger threshold is accepted
at the smaller; moreover the detector's holding phase returns exactly the
last timestamp of the first accepted run. -/
theorem C10_threshold_monotone (c : Config) (l : List Reading) (d : ℚ)
    (h : c.duration_holding_min ≤ d) :
    (acceptedRuns (setDuration c d) l).Sublist (acceptedRuns c l) ∧
    (acceptedRuns (setDuration c d) l).length ≤ (acceptedRuns c l).length ∧
    (∀ g ∈ acceptedRuns (setDuration c d) l, g ∈ acceptedRuns c l) ∧
    findHoldingEnd c l = ((acceptedRuns c l).head?).map tsMax := by
  have hsub : (acceptedRuns (setDuration c d) l).Sublist (acceptedRuns c l) := by
    unfold acceptedRuns
    have hruns : holdingRuns (setDuration c d) l = holdingRuns c l := rfl
    rw [hruns]
    apply List.monotone_filter_right
    intro g hg
    simp only [decide_eq_true_iff, setDuration] at hg ⊢
    exact le_trans h hg
  refine ⟨hsub, hsub.length_le, fun g hg => hsub.subset hg, ?_⟩
  unfold findHoldingEnd acceptedRuns
  rw [find?_eq_head?_filter]

/-- Witness for C10 at the concrete window: raising the threshold from
1 h to 2 h keeps the accepted runs a sublist of the original ones. -/
theorem C10_witness :
    cfgNS.duration_holding_min ≤ 2 ∧
    (acceptedRuns (setDuration cfgNS 2) (postStart exSensor (9.5 : ℚ))).Sublist
      (acceptedRuns cfgNS (postStart exSensor (9.5 : ℚ))) :=
  ⟨by with_unfolding_all decide,
    (C10_threshold_monotone cfgNS (postStart exSensor (9.5 : ℚ)) 2
      (by with_unfolding_all decide)).1⟩

/-- Claim C2: for every window and found start anchor, holding detection
restricts to the readings strictly after the start anchor, flags a reading
as holding iff its temperature lies in [holdMin, holdMax], partitions the
restricted sequence into maximal runs of consecutive readings with equal
flag (a run-length grouping: the runs concatenate back to the sequence,
each run is nonempty with a constant flag, and adjacent runs carry
different flags), and accepts the first holding-flagged run whose duration
(last timestamp minus first timestamp within the run) reaches the minimum
holding duration, taking that run's last timestamp as the holding-end
anchor; if no run qualifies the detector rejects. -/
theorem C2_holding_detection (l : List Reading) (c : Config) (s : Reading)
    (hsort : l.Pairwise (fun a b => a.ts ≤ b.ts))
    (hstart : findStart l c = .ok s) :
    (∀ r, r ∈ postStart l s.ts ↔ r ∈ l ∧ s.ts < r.ts) ∧
    ((splitRuns (isHolding c) (postStart l s.ts)).flatten = postStart l s.ts) ∧
    (∀ g ∈ splitRuns (isHolding c) (postStart l s.ts),
      g ≠ [] ∧ ∀ x ∈ g, ∀ y ∈ g, isHolding c x = isHolding c y) ∧
    ((splitRuns (isHolding c) (postStart l s.ts)).Chain'
      (fun g h => ∀ x ∈ g, ∀ y ∈ h, isHolding c x ≠ isHolding c y)) ∧
    (∀ r ∈ postStart l s.ts,
      (isHolding c r = true ↔
        c.temp_holding_min ≤ r.temp ∧ r.temp ≤ c.temp_holding_max)) ∧
    (∀ info, analyze_cycle l c = .ok info →
      ∃ pre g suf,
        holdingRuns c (postStart l s.ts) = pre ++ g :: suf ∧
        (∀ r ∈ g, isHolding c r = true) ∧ g ≠ [] ∧
        c.duration_holding_min ≤ (g.getLastD default).ts - (g.headD default).ts ∧
        info.holding_end = (g.getLastD default).ts ∧
        ∀ g' ∈ pre,
          (g'.getLastD default).ts - (g'.headD default).ts <
            c.duration_holding_min) ∧
    ((∀ g ∈ holdingRuns c (postStart l s.ts),
        (g.getLastD default).ts - (g.headD default).ts < c.duration_holding_min) →
      analyze_cycle l c = .rejected .noValidHoldingInterval) := by
  have hpost_sorted : (postStart l s.ts).Pairwise (fun a b => a.ts ≤ b.ts) :=
    List.Pairwise.sublist (postStart_sublist l s.ts) hsort
  have key : ∀ g' ∈ holdingRuns c (postStart l s.ts),
      tsMax g' = (g'.getLastD default).ts ∧ tsMin g' = (g'.headD default).ts := by
    intro g' hg'
    obtain ⟨hsp, _⟩ := mem_holdingRuns hg'
    have hne := mem_splitRuns_ne_nil hsp
    have hsorted := List.Pairwise.sublist (splitRun_sublist hsp) hpost_sorted
    exact ⟨tsMax_sorted hne hsorted, tsMin_sorted hne hsorted⟩
  refine ⟨?_, ?_, ?_, ?_, ?_, ?_, ?_⟩
  · intro r; exact mem_postStart
  · exact splitRuns_flatten _ _
  · intro g hg
    refine ⟨mem_splitRuns_ne_nil hg, ?_⟩
    obtain ⟨v, hv⟩ := mem_splitRuns_const hg
    intro x hx y hy
    rw [hv x hx, hv y hy]
  · exact splitRuns_chain' _ _
  · intro r _; exact isHolding_iff
  · intro info hinfo
    obtain ⟨hfs', hhe, _, _⟩ := analyze_cycle_ok_inv hinfo
    rw [hstart] at hfs'
    injection hfs' with hseq
    rw [← hseq] at hhe
    obtain ⟨g, hfind, htsmax⟩ := findHoldingEnd_some_inv hhe
    obtain ⟨pre, suf, hsplit, hpg, hpre⟩ := find?_eq_some_split.mp hfind
    have hgmem : g ∈ holdingRuns c (postStart l s.ts) := by
      rw [hsplit]; exact List.mem_append_right _ (List.mem_cons_self _ _)
    obtain ⟨hmaxeq, hmineq⟩ := key g hgmem
    refine ⟨pre, g, suf, hsplit, mem_holdingRuns_all_holding hgmem,
      mem_splitRuns_ne_nil (mem_holdingRuns hgmem).1, ?_, ?_, ?_⟩
    · have := decide_eq_true_iff.mp hpg
      rwa [hmaxeq, hmineq] at this
    · rw [← htsmax, hmaxeq]
    · intro g' hg'
      have hg'mem : g' ∈ holdingRuns c (postStart l s.ts) := by
        rw [hsplit]; exact List.mem_append_left _ hg'
      obtain ⟨hmaxeq', hmineq'⟩ := key g' hg'mem
      have hfail := hpre g' hg'
      have : ¬ (c.duration_holding_min ≤ tsMax g' - tsMin g') := by
        simpa using hfail
      rw [hmaxeq', hmineq'] at this
      exact lt_of_not_le this
  · intro hall
    cases hfh : findHoldingEnd c (postStart l s.ts) with
    | none => exact analyze_cycle_eq_rejected_holding hstart hfh
    | some he =>
      obtain ⟨g, hfind, _⟩ := findHoldingEnd_some_inv hfh
      have hgmem : g ∈ holdingRuns c (postStart l s.ts) :=
        List.mem_of_find?_eq_some hfind
      obtain ⟨hmaxeq, hmineq⟩ := key g hgmem
      have hpg := List.find?_some hfind
      have hle := decide_eq_true_iff.mp hpg
      rw [hmaxeq, hmineq] at hle
      exact absurd hle (not_le_of_lt (hall g hgmem))

/-- Witness for C2: the concrete window `exSensor` with its 09:30 start
anchor; the holding run 10:00-11:30 is the first accepted run and 11:30 is
the holding-end anchor. -/
theorem C2_witness :
    exSensor.Pairwise (fun a b => a.ts ≤ b.ts) ∧
    findStart exSensor cfgNS = .ok ⟨9.5, 500, 100, "F1"⟩ ∧
    ∀ info, analyze_cycle exSensor cfgNS = .ok info →
      ∃ pre g suf,
        holdingRuns cfgNS
            (postStart exSensor (⟨9.5, 500, 100, "F1"⟩ : Reading).ts) =
          pre ++ g :: suf ∧
        (∀ r ∈ g, isHolding cfgNS r = true) ∧ g ≠ [] ∧
        cfgNS.duration_holding_min ≤
          (g.getLastD default).ts - (g.headD default).ts ∧
        info.holding_end = (g.getLastD default).ts ∧
        ∀ g' ∈ pre,
          (g'.getLastD default).ts - (g'.headD default).ts <
            cfgNS.duration_holding_min :=
  ⟨by with_unfolding_all decide, by with_unfolding_all decide,
    (C2_holding_detection exSensor cfgNS ⟨9.5, 500, 100, "F1"⟩
      (by with_unfolding_all decide) (by with_unfolding_all decide)).2.2.2.2.2.1⟩

theorem lookaheadSlice_headD {l : List Reading} {i : ℕ} (h : i < l.length) :
    (lookaheadSlice l i).headD default = l.getD i default := by
  unfold lookaheadSlice
  rw [List.drop_eq_getElem_cons h, List.take_succ_cons, List.headD_cons,
    List.getD_eq_getElem l default h]

theorem lookaheadSlice_length_le (l : List Reading) (i : ℕ) :
    (lookaheadSlice l i).length ≤ 11 := by
  simp [lookaheadSlice]

/-- Claim C3: in strict mode the start anchor is the first reading with
temperature ≤ startMax whose look-ahead slice (the reading itself plus up
to 10 samples ahead, hence at most 11 samples, beginning at the candidate)
holds at least 5 samples and rises by at least 5 °C from its first to its
last sample; a candidate whose slice holds fewer than 5 samples is merely
skipped — scanning continues, and any later qualifying candidate still
wins; if no candidate qualifies the detector rejects with the
no-valid-reheat-start reason. -/
theorem C3_strict_start (l : List Reading) (c : Config)
    (hc : c.check_strict_start = true) :
    (∀ s, findStart l c = .ok s →
      ∃ i, i < l.length ∧ s = l.getD i default ∧
        (l.getD i default).temp ≤ c.temp_start ∧
        5 ≤ (lookaheadSlice l i).length ∧
        5 ≤ ((lookaheadSlice l i).getLastD default).temp -
          ((lookaheadSlice l i).headD default).temp ∧
        (lookaheadSlice l i).headD default = l.getD i default ∧
        (lookaheadSlice l i).length ≤ 11 ∧
        ∀ j < i, ¬((l.getD j default).temp ≤ c.temp_start ∧
          5 ≤ (lookaheadSlice l j).length ∧
          5 ≤ ((lookaheadSlice l j).getLastD default).temp -
            ((lookaheadSlice l j).headD default).temp)) ∧
    (∀ i, i < l.length →
      ((l.getD i default).temp ≤ c.temp_start ∧
        5 ≤ (lookaheadSlice l i).length ∧
        5 ≤ ((lookaheadSlice l i).getLastD default).temp -
          ((lookaheadSlice l i).headD default).temp) →
      (∀ j < i, ¬((l.getD j default).temp ≤ c.temp_start ∧
        5 ≤ (lookaheadSlice l j).length ∧
        5 ≤ ((lookaheadSlice l j).getLastD default).temp -
          ((lookaheadSlice l j).headD default).temp)) →
      findStart l c = .ok (l.getD i default)) ∧
    ((∀ i, i < l.length → ¬((l.getD i default).temp ≤ c.temp_start ∧
        5 ≤ (lookaheadSlice l i).length ∧
        5 ≤ ((lookaheadSlice l i).getLastD default).temp -
          ((lookaheadSlice l i).headD default).temp)) →
      analyze_cycle l c = .rejected .noValidReheatStart) := by
  have hPiff : ∀ i,
      ((decide ((l.getD i default).temp ≤ c.temp_start) && strictRiseOk l i) = true ↔
        ((l.getD i default).temp ≤ c.temp_start ∧
          5 ≤ (lookaheadSlice l i).length ∧
          5 ≤ ((lookaheadSlice l i).getLastD default).temp -
            ((lookaheadSlice l i).headD default).temp)) := by
    intro i
    simp [strictRiseOk, Bool.and_eq_true, and_assoc]
  refine ⟨?_, ?_, ?_⟩
  · intro s hs
    cases hfind : (List.range l.length).find?
        (fun i => decide ((l.getD i default).temp ≤ c.temp_start) && strictRiseOk l i) with
    | none =>
      simp only [findStart, hc, if_true, hfind] at hs
      exact Except.noConfusion hs
    | some i =>
      simp only [findStart, hc, if_true, hfind, Except.ok.injEq] at hs
      obtain ⟨hi, hPi, hprev⟩ := find?_range_eq_some.mp hfind
      obtain ⟨h₁, h₂, h₃⟩ := (hPiff i).mp hPi
      refine ⟨i, hi, hs.symm, h₁, h₂, h₃, lookaheadSlice_headD hi,
        lookaheadSlice_length_le l i, ?_⟩
      intro j hj hp
      have := (hPiff j).mpr hp
      rw [hprev j hj] at this
      exact Bool.noConfusion this
  · intro i hi hqual hnone
    have hfind : (List.range l.length).find?
        (fun i => decide ((l.getD i default).temp ≤ c.temp_start) && strictRiseOk l i) =
          some i := by
      refine find?_range_eq_some.mpr ⟨hi, (hPiff i).mpr hqual, ?_⟩
      intro j hj
      cases hPj : (decide ((l.getD j default).temp ≤ c.temp_start) && strictRiseOk l j) with
      | false => rfl
      | true => exact absurd ((hPiff j).mp hPj) (hnone j hj)
    simp only [findStart, hc, if_true, hfind]
  · intro hnone
    have hfind : (List.range l.length).find?
        (fun i => decide ((l.getD i default).temp ≤ c.temp_start) && strictRiseOk l i) =
          none := by
      refine find?_eq_none_iff.mpr ?_
      intro i hi
      cases hPi : (decide ((l.getD i default).temp ≤ c.temp_start) && strictRiseOk l i) with
      | false => rfl
      | true => exact absurd ((hPiff i).mp hPi) (hnone i (List.mem_range.mp hi))
    exact analyze_cycle_eq_rejected_start (by simp only [findStart, hc, if_true, hfind])

/-- Witness for C3: on the concrete strict window `strictSensor` the start
anchor is the 00:00 reading at 580 °C, whose slice is the whole 7-sample
window rising 270 °C. -/
theorem C3_witness :
    cfgS.check_strict_start = true ∧
    ∀ s, findStart strictSensor cfgS = .ok s →
      ∃ i, i < strictSensor.length ∧ s = strictSensor.getD i default ∧
        (strictSensor.getD i default).temp ≤ cfgS.temp_start ∧
        5 ≤ (lookaheadSlice strictSensor i).length ∧
        5 ≤ ((lookaheadSlice strictSensor i).getLastD default).temp -
          ((lookaheadSlice strictSensor i).headD default).temp ∧
        (lookaheadSlice strictSensor i).headD default = strictSensor.getD i default ∧
        (lookaheadSlice strictSensor i).length ≤ 11 ∧
        ∀ j < i, ¬((strictSensor.getD j default).temp ≤ cfgS.temp_start ∧
          5 ≤ (lookaheadSlice strictSensor j).length ∧
          5 ≤ ((lookaheadSlice strictSensor j).getLastD default).temp -
            ((lookaheadSlice strictSensor j).headD default).temp) :=
  ⟨rfl, (C3_strict_start strictSensor cfgS rfl).1⟩

theorem analyze_cycle_eq_rejected_end {l : List Reading} {c : Config} {s : Reading}
    {he : ℚ}
    (hfs : findStart l c = .ok s)
    (hhe : findHoldingEnd c (postStart l s.ts) = some he)
    (hfe : findEnd c l he = none) :
    analyze_cycle l c = .rejected .endNotReached := by
  simp [analyze_cycle, hfs, hhe, hfe]

theorem findStart_nonstrict_error {l : List Reading} {c : Config} {e : RejectReason}
    (hc : c.check_strict_start = false) (h : findStart l c = .error e) :
    e = .noStartCandidate := by
  cases hfind : l.find? (fun r => decide (r.temp ≤ c.temp_start)) with
  | some r =>
    simp only [findStart, hc, Bool.false_eq_true, if_false, hfind] at h
    exact Except.noConfusion h
  | none =>
    simp only [findStart, hc, Bool.false_eq_true, if_false, hfind,
      Except.error.injEq] at h
    exact h.symm

/-- Claim C7: in strict mode, once start and end anchors are found, a
reading in the check window beginning 2 hours after the start anchor and
ending strictly before the end anchor with temperature strictly below
startMax makes the detector reject the whole candidate, reporting the
first (earliest) such violating timestamp; with no such reading the
candidate goes through; in non-strict mode this validation never fires —
no invocation rejects with the abnormal-low-temperature reason. -/
theorem C7_abnormal_low_validation (l : List Reading) (c : Config) :
    (c.check_strict_start = false →
      ∀ t, analyze_cycle l c ≠ .rejected (.abnormalLowTemperature t)) ∧
    (c.check_strict_start = true →
      l.Pairwise (fun a b => a.ts ≤ b.ts) →
      ∀ s he erow, findStart l c = .ok s →
        findHoldingEnd c (postStart l s.ts) = some he →
        findEnd c l he = some erow →
        ((∃ r ∈ l, s.ts + 2 ≤ r.ts ∧ r.ts < erow.ts ∧ r.temp < c.temp_start) →
          ∃ r ∈ l, s.ts + 2 ≤ r.ts ∧ r.ts < erow.ts ∧ r.temp < c.temp_start ∧
            analyze_cycle l c = .rejected (.abnormalLowTemperature r.ts) ∧
            ∀ r' ∈ l, s.ts + 2 ≤ r'.ts → r'.ts < erow.ts →
              r'.temp < c.temp_start → r.ts ≤ r'.ts) ∧
        ((∀ r ∈ l, s.ts + 2 ≤ r.ts → r.ts < erow.ts → ¬(r.temp < c.temp_start)) →
          analyze_cycle l c = .ok ⟨s, erow, he⟩)) := by
  constructor
  · intro hc t hcontra
    cases hfs : findStart l c with
    | error e =>
      rw [analyze_cycle_eq_rejected_start hfs] at hcontra
      injection hcontra with h
      rw [findStart_nonstrict_error hc hfs] at h
      exact RejectReason.noConfusion h
    | ok s =>
      cases hhe : findHoldingEnd c (postStart l s.ts) with
      | none =>
        rw [analyze_cycle_eq_rejected_holding hfs hhe] at hcontra
        injection hcontra with h
        exact RejectReason.noConfusion h
      | some he =>
        cases hfe : findEnd c l he with
        | none =>
          rw [analyze_cycle_eq_rejected_end hfs hhe hfe] at hcontra
          injection hcontra with h
          exact RejectReason.noConfusion h
        | some erow =>
          rw [analyze_cycle_eq_ok hfs hhe hfe
            (fun hcc => absurd hcc (by simp [hc]))] at hcontra
          exact DetectResult.noConfusion hcontra
  · intro hc hsort s he erow hfs hhe hfe
    constructor
    · rintro ⟨r, hrl, h1, h2, h3⟩
      have hrW : r ∈ l.filter
          (fun r => decide (s.ts + 2 ≤ r.ts) && decide (r.ts < erow.ts)) :=
        List.mem_filter.mpr ⟨hrl, by simp [h1, h2]⟩
      cases hab : (l.filter
          (fun r => decide (s.ts + 2 ≤ r.ts) && decide (r.ts < erow.ts))).find?
            (fun r => decide (r.temp < c.temp_start)) with
      | none =>
        have := find?_eq_none_iff.mp hab r hrW
        simp only [decide_eq_false_iff_not] at this
        exact absurd h3 this
      | some r₀ =>
        have hr₀W := List.mem_of_find?_eq_some hab
        obtain ⟨hr₀l, hcond⟩ := List.mem_filter.mp hr₀W
        have hcond' : s.ts + 2 ≤ r₀.ts ∧ r₀.ts < erow.ts := by
          simpa using hcond
        have hp₀ : r₀.temp < c.temp_start := by
          simpa using List.find?_some hab
        have habn : abnormalLowCheck c l s.ts erow.ts = some r₀.ts := by
          simp [abnormalLowCheck, hab]
        refine ⟨r₀, hr₀l, hcond'.1, hcond'.2, hp₀,
          analyze_cycle_eq_rejected_abnormal hc hfs hhe hfe habn, ?_⟩
        intro r' hr'l h1' h2' h3'
        have hr'W : r' ∈ l.filter
            (fun r => decide (s.ts + 2 ≤ r.ts) && decide (r.ts < erow.ts)) :=
          List.mem_filter.mpr ⟨hr'l, by simp [h1', h2']⟩
        obtain ⟨l₁, l₂, hWeq, _, hfail⟩ := find?_eq_some_split.mp hab
        have hWsorted : (l.filter
            (fun r => decide (s.ts + 2 ≤ r.ts) && decide (r.ts < erow.ts))).Pairwise
              (fun a b => a.ts ≤ b.ts) :=
          List.Pairwise.sublist (List.filter_sublist l) hsort
        rw [hWeq] at hr'W hWsorted
        rcases List.mem_append.mp hr'W with h' | h'
        · have := hfail r' h'
          simp only [decide_eq_false_iff_not] at this
          exact absurd h3' this
        · rcases List.mem_cons.mp h' with h' | h'
          · rw [h']
          · have hpr := (List.pairwise_append.mp hWsorted).2.1
            exact (List.pairwise_cons.mp hpr).1 r' h'
    · intro hnone
      have hab : abnormalLowCheck c l s.ts erow.ts = none := by
        unfold abnormalLowCheck
        rw [find?_eq_none_iff.mpr]
        · rfl
        · intro x hx
          obtain ⟨hxl, hcond⟩ := List.mem_filter.mp hx
          have hcond' : s.ts + 2 ≤ x.ts ∧ x.ts < erow.ts := by simpa using hcond
          simpa using hnone x hxl hcond'.1 hcond'.2
      exact analyze_cycle_eq_ok hfs hhe hfe (fun _ => hab)

/-- Witness for C7: the concrete strict cycle `strictSensor` has no
reading below 600 °C in the check window [02:00, 06:00), so the candidate
goes through. -/
theorem C7_witness :
    cfgS.check_strict_start = true ∧
    strictSensor.Pairwise (fun a b => a.ts ≤ b.ts) ∧
    findStart strictSensor cfgS = .ok ⟨0, 580, 0, "F1"⟩ ∧
    findHoldingEnd cfgS
      (postStart strictSensor (⟨0, 580, 0, "F1"⟩ : Reading).ts) = some 5 ∧
    findEnd cfgS strictSensor 5 = some ⟨6, 850, 500, "F1"⟩ ∧
    (∀ r ∈ strictSensor,
      (⟨0, 580, 0, "F1"⟩ : Reading).ts + 2 ≤ r.ts →
      r.ts < (⟨6, 850, 500, "F1"⟩ : Reading).ts → ¬(r.temp < cfgS.temp_start)) ∧
    analyze_cycle strictSensor cfgS =
      .ok ⟨⟨0, 580, 0, "F1"⟩, ⟨6, 850, 500, "F1"⟩, 5⟩ :=
  ⟨rfl, by with_unfolding_all decide, by with_unfolding_all decide,
    by with_unfolding_all decide, by with_unfolding_all decide,
    by with_unfolding_all decide,
    ((C7_abnormal_low_validation strictSensor cfgS).2 rfl
      (by with_unfolding_all decide) ⟨0, 580, 0, "F1"⟩ 5 ⟨6, 850, 500, "F1"⟩
      (by with_unfolding_all decide) (by with_unfolding_all decide)
      (by with_unfolding_all decide)).2 (by with_unfolding_all decide)⟩

theorem process_data_charge_step_never_some (sensor : List Reading) (prod : Charge)
    (mp : MatchParams) (res : CycleResult) :
    process_data_charge_step sensor prod mp ≠ .completed (some res) := by
  intro h
  by_cases hw : (chargeWindow sensor prod mp).isEmpty
  · simp only [process_data_charge_step] at h
    rw [if_pos hw] at h
    injection h with h'
    exact Option.noConfusion h'
  · simp only [process_data_charge_step] at h
    rw [if_neg hw] at h
    exact StepOutcome.noConfusion h

/-- Claim C4 (code bug): the per-charge loop does compute the claimed
half-open search window [chargeStart − tolerance, chargeStart + 48 h) of
the unit's readings (lines 262-268), but as written it never yields a
result row for any charge — every iteration either skips an empty window
or raises the line-277 `NameError` — so the tolerance/weight/meter
acceptance conditions of lines 287-300, though present in the source
exactly as the claim states them, are unreachable; concretely, the 08:00
charge whose detected cycle starts at 09:30 raises at tolerance 1 h and
at tolerance 2 h alike, instead of being rejected and accepted
respectively. -/
theorem C4_matcher_raises_before_matching :
    (∀ (sensor : List Reading) (prod : Charge) (mp : MatchParams) (r : Reading),
      r ∈ chargeWindow sensor prod mp ↔
        r ∈ sensor ∧ prod.start_ts - mp.time_tolerance_hours ≤ r.ts ∧
          r.ts < prod.start_ts + 48) ∧
    (∀ (sensor : List Reading) (prod : Charge) (mp : MatchParams),
      process_data_charge_step sensor prod mp = .completed none ∨
        process_data_charge_step sensor prod mp =
          .raised (.nameError "duration_min_td")) ∧
    (∀ (sensor : List Reading) (prod : Charge) (mp : MatchParams) (res : CycleResult),
      process_data_charge_step sensor prod mp ≠ .completed (some res)) ∧
    process_data_charge_step exSensor exCharge mpTol1 =
      .raised (.nameError "duration_min_td") ∧
    process_data_charge_step exSensor exCharge mpTol2 =
      .raised (.nameError "duration_min_td") := by
  refine ⟨?_, ?_, process_data_charge_step_never_some, ?_, ?_⟩
  · intro sensor prod mp r
    simp [chargeWindow, List.mem_filter, and_assoc]
  · intro sensor prod mp
    by_cases hw : (chargeWindow sensor prod mp).isEmpty
    · left
      simp only [process_data_charge_step]
      rw [if_pos hw]
    · right
      simp only [process_data_charge_step]
      rw [if_neg hw]
  · with_unfolding_all decide
  · with_unfolding_all decide

/-- Claim C5 (code bug): on the program as written no matched
(cycle, charge) pair ever exists — the per-charge loop body raises at
line 277 before the unit-economics computation of lines 302-320 can run —
so the claimed specific-consumption and pass/fail attributes are never
produced for any charge; the economics expression itself, modelled from
those lines and applied to the claim's example values (gasUsed 500,
chargeWeightKg 20000), gives exactly 25.00 after two-decimal rounding,
below the 25.53 default target. -/
theorem C5_economics_never_reached :
    (∀ (sensor : List Reading) (prod : Charge) (mp : MatchParams) (res : CycleResult),
      process_data_charge_step sensor prod mp ≠ .completed (some res)) ∧
    round2 ((500 : ℚ) / (20000 / 1000)) = 25 ∧
    (500 : ℚ) / (20000 / 1000) ≤ 25.53 := by
  refine ⟨process_data_charge_step_never_some, ?_, ?_⟩
  · with_unfolding_all decide
  · with_unfolding_all decide

instance : IsTotal Reading (fun a b => a.ts ≤ b.ts) :=
  ⟨fun a b => le_total a.ts b.ts⟩

instance : IsTrans Reading (fun a b => a.ts ≤ b.ts) :=
  ⟨fun _ _ _ h₁ h₂ => le_trans h₁ h₂⟩

theorem sortByTs_sorted (l : List Reading) :
    (sortByTs l).Pairwise (fun a b => a.ts ≤ b.ts) :=
  List.sorted_insertionSort _ l

theorem mem_sortByTs {l : List Reading} {r : Reading} : r ∈ sortByTs l ↔ r ∈ l :=
  (List.perm_insertionSort _ l).mem_iff

theorem mem_dropDupKeepLast :
    ∀ {l : List Reading} {r : Reading}, r ∈ dropDupKeepLast l → r ∈ l := by
  intro l
  induction l with
  | nil => intro r h; simp [dropDupKeepLast] at h
  | cons a t ih =>
    intro r hr
    cases t with
    | nil => simpa [dropDupKeepLast] using hr
    | cons b t' =>
      by_cases hd : a.ts = b.ts ∧ a.unit = b.unit
      · simp only [dropDupKeepLast] at hr
        rw [if_pos hd] at hr
        exact List.mem_cons_of_mem _ (ih hr)
      · simp only [dropDupKeepLast] at hr
        rw [if_neg hd] at hr
        rcases List.mem_cons.mp hr with h | h
        · rw [h]; exact List.mem_cons_self _ _
        · exact List.mem_cons_of_mem _ (ih h)

theorem dropDupKeepLast_strict (u : String) :
    ∀ {l : List Reading}, (∀ r ∈ l, r.unit = u) →
      l.Pairwise (fun a b => a.ts ≤ b.ts) →
      (dropDupKeepLast l).Pairwise (fun a b => a.ts < b.ts) := by
  intro l
  induction l with
  | nil => intro _ _; simp [dropDupKeepLast]
  | cons a t ih =>
    intro hu hs
    cases t with
    | nil => simp [dropDupKeepLast]
    | cons b t' =>
      rcases List.pairwise_cons.mp hs with ⟨hle, hs'⟩
      have hu' : ∀ r ∈ b :: t', r.unit = u :=
        fun r hr => hu r (List.mem_cons_of_mem _ hr)
      by_cases hd : a.ts = b.ts ∧ a.unit = b.unit
      · simp only [dropDupKeepLast]
        rw [if_pos hd]
        exact ih hu' hs'
      · simp only [dropDupKeepLast]
        rw [if_neg hd]
        refine List.pairwise_cons.mpr ⟨?_, ih hu' hs'⟩
        intro y hy
        have hyb : y ∈ b :: t' := mem_dropDupKeepLast hy
        have hne : a.ts ≠ b.ts := by
          intro he
          exact hd ⟨he, by
            rw [hu a (List.mem_cons_self _ _), hu b
              (List.mem_cons_of_mem _ (List.mem_cons_self _ _))]⟩
        have hab : a.ts < b.ts :=
          lt_of_le_of_ne (hle b (List.mem_cons_self _ _)) hne
        rcases List.mem_cons.mp hyb with h | h
        · rw [h]; exact hab
        · exact lt_of_lt_of_le hab ((List.pairwise_cons.mp hs').1 y h)

/-- Claim C8 counterexample: when one unit's readings come from two
uploaded files sharing a timestamp, the assembled per-unit sequence is not
strictly increasing — deduplication runs per file only (line 226), before
the files are concatenated without re-sorting or global deduplication. -/
theorem C8_counterexample :
    ¬ ((assembleSensor [[⟨1, 650, 3, "F1"⟩], [⟨1, 640, 2, "F1"⟩]]).filter
        (fun r => r.unit == "F1")).Pairwise (fun a b => a.ts < b.ts) := by
  with_unfolding_all decide

/-- Claim C8 amended: deduplication by (timestamp, unitId) keeping the
last occurrence is applied to each uploaded file separately, so within the
rows contributed by a single file (whose rows all carry that file's
extracted unit id) timestamps are strictly increasing and every retained
row comes from the file; across files of the same unit, duplicates are not
removed and the concatenated sequence need not be chronological. -/
theorem C8_perfile_strictly_increasing (rows : List Reading) (u : String)
    (h : ∀ r ∈ rows, r.unit = u) :
    (cleanFile rows).Pairwise (fun a b => a.ts < b.ts) ∧
    ∀ r ∈ cleanFile rows, r ∈ rows := by
  constructor
  · exact dropDupKeepLast_strict u
      (fun r hr => h r (mem_sortByTs.mp hr)) (sortByTs_sorted rows)
  · intro r hr
    exact mem_sortByTs.mp (mem_dropDupKeepLast hr)

/-- Witness for the amended C8: a file with two rows at timestamp 1 keeps
only the later occurrence and ends up strictly increasing. -/
theorem C8_witness :
    (∀ r ∈ [(⟨2, 700, 5, "F1"⟩ : Reading), ⟨1, 650, 3, "F1"⟩, ⟨1, 640, 2, "F1"⟩],
      r.unit = "F1") ∧
    cleanFile [⟨2, 700, 5, "F1"⟩, ⟨1, 650, 3, "F1"⟩, ⟨1, 640, 2, "F1"⟩] =
      [⟨1, 640, 2, "F1"⟩, ⟨2, 700, 5, "F1"⟩] ∧
    (cleanFile [⟨2, 700, 5, "F1"⟩, ⟨1, 650, 3, "F1"⟩, ⟨1, 640, 2, "F1"⟩]).Pairwise
      (fun a b => a.ts < b.ts) :=
  ⟨by with_unfolding_all decide, by with_unfolding_all decide,
    (C8_perfile_strictly_increasing
      [⟨2, 700, 5, "F1"⟩, ⟨1, 650, 3, "F1"⟩, ⟨1, 640, 2, "F1"⟩] "F1"
      (by with_unfolding_all decide)).1⟩
